import Mathlib

/-!
Verification development for the tile-mosaic program (`src/20/main.py`).

The program's images are square numpy arrays of 0/1 pixels.  We embed an
N×N image as a function `Fin n → Fin n → Bool` (`True` = set pixel `1`);
squareness of every image is carried by the type itself.  All geometric
transforms of the source are embedded index-wise, matching numpy:

* `np.rot90` (one anticlockwise quarter turn): `out[i][j] = in[j][n-1-i]`;
* `image[::-1, :]` (`reflect_up_down`):        `out[i][j] = in[n-1-i][j]`;
* `image[:, ::-1]` (`reflect_left_right`):     `out[i][j] = in[i][n-1-j]`.

`Fin.rev i` is exactly the index `n - 1 - i`.
-/

set_option maxRecDepth 40000

namespace Aoc20

/-- A square bitmap: entry `a i j` is row `i`, column `j` (`true` = `#`). -/
abbrev Image (n : ℕ) : Type := Fin n → Fin n → Bool

variable {n : ℕ}

/-- `Tile.rotate(1)`, i.e. `np.rot90(image, k=1)`: one anticlockwise quarter
turn, `out[i][j] = in[j][n-1-i]`. -/
def rot90 (a : Image n) : Image n := fun i j => a j i.rev

/-- `Tile.reflect_up_down`: `image[::-1, :]`. -/
def reflect_up_down (a : Image n) : Image n := fun i j => a i.rev j

/-- `Tile.reflect_left_right`: `image[:, ::-1]`. -/
def reflect_left_right (a : Image n) : Image n := fun i j => a i j.rev

/-- `Tile.rotate(k)`: `np.rot90(image, k)`, `k` anticlockwise quarter turns. -/
def rotate (k : ℕ) (a : Image n) : Image n := rot90^[k] a

/-- Row/column index `0`, available as soon as some `Fin n` exists. -/
def idx0 (j : Fin n) : Fin n := ⟨0, Nat.lt_of_le_of_lt (Nat.zero_le j.val) j.isLt⟩

/-- First row of the image (`image[0, :]`), read left to right. -/
def topEdge (a : Image n) : List Bool := List.ofFn fun j => a (idx0 j) j

/-- Last row of the image (`image[-1, :]`), read left to right. -/
def botEdge (a : Image n) : List Bool := List.ofFn fun j => a (idx0 j).rev j

/-- First column of the image (`image[:, 0]`), read top to bottom. -/
def leftEdge (a : Image n) : List Bool := List.ofFn fun i => a i (idx0 i)

/-- Last column of the image (`image[:, -1]`), read top to bottom. -/
def rightEdge (a : Image n) : List Bool := List.ofFn fun i => a i (idx0 i).rev

/-- `Tile.list_edges`: the ordered edge list `[top, bottom, left, right]`. -/
def list_edges (a : Image n) : List (List Bool) :=
  [topEdge a, botEdge a, leftEdge a, rightEdge a]

/-- `Tile.edges`: the same four edges as a set (Python builds a `set`). -/
def edgeSet (a : Image n) : Finset (List Bool) := (list_edges a).toFinset

/-- One step of the 8-step orientation search shared by `match_two_tiles`
and `measure_water_roughness`: at step index 4 reflect horizontally, then
always rotate one anticlockwise quarter turn. -/
def stepTransform (i : ℕ) (a : Image n) : Image n :=
  rot90 (if i = 4 then reflect_left_right a else a)

/-- The successive images produced by running `stepTransform` at the given
step indices, starting from `a` (each state listed after its step). -/
def statesFrom : Image n → List ℕ → List (Image n)
  | _, [] => []
  | a, i :: rest => stepTransform i a :: statesFrom (stepTransform i a) rest

/-- The 8 successive orientations tried by the source's `for i in range(8)`
loops (`match_two_tiles` and `measure_water_roughness`). -/
def orientationStates (a : Image n) : List (Image n) := statesFrom a (List.range 8)

/-- The canonical list of the 8 dihedral transforms of `a`: the 4 rotations
of `a` and the 4 rotations of its horizontal reflection. -/
def dihedralImages (a : Image n) : List (Image n) :=
  [a, rot90 a, rot90 (rot90 a), rot90 (rot90 (rot90 a)),
   reflect_left_right a, rot90 (reflect_left_right a),
   rot90 (rot90 (reflect_left_right a)), rot90 (rot90 (rot90 (reflect_left_right a)))]

theorem rot90_rot90 (a : Image n) (i j : Fin n) :
    rot90 (rot90 a) i j = a i.rev j.rev := rfl

theorem rot90_four (a : Image n) : rot90 (rot90 (rot90 (rot90 a))) = a := by
  funext i j
  simp [rot90, Fin.rev_rev]

theorem statesFrom_cons (a : Image n) (i : ℕ) (rest : List ℕ) :
    statesFrom a (i :: rest) =
      stepTransform i a :: statesFrom (stepTransform i a) rest := rfl

/-- Closed form of the 8 successive orientations: the three rotations, the
original (after four rotations), then the three rotations of the reflection,
and finally the bare reflection (after four more rotations). -/
theorem orientationStates_eq (a : Image n) :
    orientationStates a =
      [rot90 a, rot90 (rot90 a), rot90 (rot90 (rot90 a)), a,
       rot90 (reflect_left_right a), rot90 (rot90 (reflect_left_right a)),
       rot90 (rot90 (rot90 (reflect_left_right a))), reflect_left_right a] := by
  have hr : List.range 8 = [0, 1, 2, 3, 4, 5, 6, 7] := by decide
  have h4 : ∀ b : Image n, stepTransform 4 b = rot90 (reflect_left_right b) := by
    intro b; simp [stepTransform]
  have hk : ∀ i : ℕ, i ≠ 4 → ∀ b : Image n, stepTransform i b = rot90 b := by
    intro i hi b; simp [stepTransform, hi]
  rw [orientationStates, hr]
  rw [statesFrom_cons, statesFrom_cons, statesFrom_cons, statesFrom_cons,
    statesFrom_cons, statesFrom_cons, statesFrom_cons, statesFrom_cons]
  rw [hk 0 (by decide), hk 1 (by decide), hk 2 (by decide), hk 3 (by decide),
    h4, hk 5 (by decide), hk 6 (by decide), hk 7 (by decide)]
  rw [rot90_four a]
  rw [rot90_four (reflect_left_right a)]
  rfl

/-- Claim C3: the 8-step transform sequence used by both the tile matcher
and the pattern scanner (reflect horizontally just before the rotation at
step index 4, rotate one anticlockwise quarter turn at every step) produces
over its 8 steps exactly the 8 dihedral-group transforms of the original
bitmap, each exactly once (the state list is a permutation of the canonical
dihedral orbit); in particular 4 successive rotations restore the original. -/
theorem orientation_sequence_dihedral (a : Image n) :
    orientationStates a =
      [rot90 a, rot90 (rot90 a), rot90 (rot90 (rot90 a)), a,
       rot90 (reflect_left_right a), rot90 (rot90 (reflect_left_right a)),
       rot90 (rot90 (rot90 (reflect_left_right a))), reflect_left_right a] ∧
    (orientationStates a).Perm (dihedralImages a) ∧
    rotate 4 a = a := by
  refine ⟨orientationStates_eq a, ?_, ?_⟩
  · rw [orientationStates_eq a, dihedralImages]
    have p1 : ([rot90 a, rot90 (rot90 a), rot90 (rot90 (rot90 a))] ++ a ::
        [rot90 (reflect_left_right a), rot90 (rot90 (reflect_left_right a)),
          rot90 (rot90 (rot90 (reflect_left_right a))),
          reflect_left_right a]).Perm
        (a :: ([rot90 a, rot90 (rot90 a), rot90 (rot90 (rot90 a))] ++
          [rot90 (reflect_left_right a), rot90 (rot90 (reflect_left_right a)),
            rot90 (rot90 (rot90 (reflect_left_right a))),
            reflect_left_right a])) := List.perm_middle
    have p2 : ([rot90 (reflect_left_right a),
        rot90 (rot90 (reflect_left_right a)),
        rot90 (rot90 (rot90 (reflect_left_right a)))] ++
          reflect_left_right a :: []).Perm
        (reflect_left_right a :: ([rot90 (reflect_left_right a),
          rot90 (rot90 (reflect_left_right a)),
          rot90 (rot90 (rot90 (reflect_left_right a)))] ++ [])) :=
      List.perm_middle
    refine List.Perm.trans p1 ?_
    refine List.Perm.cons a ?_
    refine List.Perm.cons _ ?_
    refine List.Perm.cons _ ?_
    refine List.Perm.cons _ ?_
    exact p2
  · show rot90^[4] a = a
    rw [show (4 : ℕ) = 1 + 1 + 1 + 1 by decide]
    rw [Function.iterate_add_apply, Function.iterate_add_apply,
      Function.iterate_add_apply]
    simp only [Function.iterate_one]
    exact rot90_four a

/-! ### Pixel content (C8)

`image.sum()` in the source counts the set pixels.  `pixelMultiset` is the
multiset of all `n²` pixel values of an image, `pixelCount` the number of
set pixels among them. -/

/-- The multiset of all pixel values of the image. -/
def pixelMultiset (a : Image n) : Multiset Bool :=
  (Finset.univ : Finset (Fin n × Fin n)).val.map fun p => a p.1 p.2

/-- `image.sum()`: the number of set pixels. -/
def pixelCount (a : Image n) : ℕ := (pixelMultiset a).count true

/-- A transform that repositions pixels along a bijection of the index grid
leaves the multiset of pixel values unchanged. -/
theorem pixelMultiset_of_equiv (σ : (Fin n × Fin n) ≃ (Fin n × Fin n))
    (a b : Image n) (h : ∀ p : Fin n × Fin n, b p.1 p.2 = a (σ p).1 (σ p).2) :
    pixelMultiset b = pixelMultiset a := by
  unfold pixelMultiset
  have h1 : (Finset.univ : Finset (Fin n × Fin n)).val.map (fun p => b p.1 p.2) =
      (Finset.univ : Finset (Fin n × Fin n)).val.map (fun p => a (σ p).1 (σ p).2) :=
    Multiset.map_congr rfl fun p _ => h p
  rw [h1]
  have h2 : (Finset.univ : Finset (Fin n × Fin n)).val.map (fun p => a (σ p).1 (σ p).2) =
      ((Finset.univ : Finset (Fin n × Fin n)).val.map σ).map (fun p => a p.1 p.2) := by
    rw [Multiset.map_map]; rfl
  rw [h2]
  have h3 : (Finset.univ : Finset (Fin n × Fin n)).val.map σ =
      (Finset.univ : Finset (Fin n × Fin n)).val := by
    have := Finset.map_univ_equiv σ
    calc (Finset.univ : Finset (Fin n × Fin n)).val.map σ
        = ((Finset.univ : Finset (Fin n × Fin n)).map σ.toEmbedding).val := by
          rw [Finset.map_val]; rfl
      _ = (Finset.univ : Finset (Fin n × Fin n)).val := by rw [this]
  rw [h3]

/-- The index bijection realised by one anticlockwise quarter turn. -/
def rotIdx : (Fin n × Fin n) ≃ (Fin n × Fin n) where
  toFun p := (p.2, p.1.rev)
  invFun p := (p.2.rev, p.1)
  left_inv p := by simp
  right_inv p := by simp

theorem pixelMultiset_rot90 (a : Image n) :
    pixelMultiset (rot90 a) = pixelMultiset a :=
  pixelMultiset_of_equiv rotIdx a (rot90 a) fun p => rfl

theorem pixelMultiset_rotate (k : ℕ) (a : Image n) :
    pixelMultiset (rotate k a) = pixelMultiset a := by
  induction k with
  | zero => rfl
  | succ m ih =>
      have : rotate (m + 1) a = rot90 (rotate m a) := by
        unfold rotate
        exact Function.iterate_succ_apply' rot90 m a
      rw [this, pixelMultiset_rot90, ih]

/-- The index bijection realised by the vertical reflection. -/
def udIdx : (Fin n × Fin n) ≃ (Fin n × Fin n) where
  toFun p := (p.1.rev, p.2)
  invFun p := (p.1.rev, p.2)
  left_inv p := by simp
  right_inv p := by simp

/-- The index bijection realised by the horizontal reflection. -/
def lrIdx : (Fin n × Fin n) ≃ (Fin n × Fin n) where
  toFun p := (p.1, p.2.rev)
  invFun p := (p.1, p.2.rev)
  left_inv p := by simp
  right_inv p := by simp

theorem pixelMultiset_reflect_up_down (a : Image n) :
    pixelMultiset (reflect_up_down a) = pixelMultiset a :=
  pixelMultiset_of_equiv udIdx a (reflect_up_down a) fun p => rfl

theorem pixelMultiset_reflect_left_right (a : Image n) :
    pixelMultiset (reflect_left_right a) = pixelMultiset a :=
  pixelMultiset_of_equiv lrIdx a (reflect_left_right a) fun p => rfl

theorem pixelCount_rot90 (a : Image n) : pixelCount (rot90 a) = pixelCount a := by
  unfold pixelCount; rw [pixelMultiset_rot90]

theorem pixelCount_reflect_left_right (a : Image n) :
    pixelCount (reflect_left_right a) = pixelCount a := by
  unfold pixelCount; rw [pixelMultiset_reflect_left_right]

theorem pixelCount_stepTransform (i : ℕ) (a : Image n) :
    pixelCount (stepTransform i a) = pixelCount a := by
  unfold stepTransform
  by_cases h : i = 4
  · subst h; rw [if_pos rfl, pixelCount_rot90, pixelCount_reflect_left_right]
  · rw [if_neg h, pixelCount_rot90]

/-- Claim C8: every tile transform of the source — `rotate` by any number of
quarter turns, `reflect_up_down`, `reflect_left_right` — preserves the
multiset of pixel values of the (always square, by the `Image n` type)
bitmap, hence in particular the total number of set pixels: the transforms
only reposition pixels. -/
theorem transforms_preserve_pixels (a : Image n) (k : ℕ) :
    pixelMultiset (rotate k a) = pixelMultiset a ∧
    pixelMultiset (reflect_up_down a) = pixelMultiset a ∧
    pixelMultiset (reflect_left_right a) = pixelMultiset a ∧
    pixelCount (rotate k a) = pixelCount a ∧
    pixelCount (reflect_up_down a) = pixelCount a ∧
    pixelCount (reflect_left_right a) = pixelCount a := by
  refine ⟨pixelMultiset_rotate k a, pixelMultiset_reflect_up_down a,
    pixelMultiset_reflect_left_right a, ?_, ?_, ?_⟩ <;> unfold pixelCount
  · rw [pixelMultiset_rotate k a]
  · rw [pixelMultiset_reflect_up_down a]
  · rw [pixelMultiset_reflect_left_right a]

/-! ### How the four edges move under the transforms -/

theorem reverse_ofFn {α : Type} {m : ℕ} (f : Fin m → α) :
    (List.ofFn f).reverse = List.ofFn fun i => f i.rev := by
  apply List.ext_getElem
  · simp
  · intro i h1 h2
    rw [List.getElem_reverse, List.getElem_ofFn, List.getElem_ofFn]
    congr 1
    apply Fin.ext
    simp only [Fin.rev]
    simp at h1 ⊢
    omega

theorem topEdge_rot90 (a : Image n) : topEdge (rot90 a) = rightEdge a := rfl

theorem botEdge_rot90 (a : Image n) : botEdge (rot90 a) = leftEdge a := by
  rw [botEdge, leftEdge, List.ofFn_inj]
  funext j
  simp [rot90, Fin.rev_rev]

theorem leftEdge_rot90 (a : Image n) : leftEdge (rot90 a) = (topEdge a).reverse := by
  rw [leftEdge, topEdge, reverse_ofFn, List.ofFn_inj]
  funext i
  rfl

theorem rightEdge_rot90 (a : Image n) : rightEdge (rot90 a) = (botEdge a).reverse := by
  rw [rightEdge, botEdge, reverse_ofFn, List.ofFn_inj]
  funext i
  rfl

theorem topEdge_ud (a : Image n) : topEdge (reflect_up_down a) = botEdge a := rfl

theorem botEdge_ud (a : Image n) : botEdge (reflect_up_down a) = topEdge a := by
  rw [botEdge, topEdge, List.ofFn_inj]
  funext j
  simp [reflect_up_down, Fin.rev_rev]

theorem leftEdge_ud (a : Image n) :
    leftEdge (reflect_up_down a) = (leftEdge a).reverse := by
  rw [leftEdge, leftEdge, reverse_ofFn, List.ofFn_inj]
  funext i
  rfl

theorem rightEdge_ud (a : Image n) :
    rightEdge (reflect_up_down a) = (rightEdge a).reverse := by
  rw [rightEdge, rightEdge, reverse_ofFn, List.ofFn_inj]
  funext i
  rfl

theorem topEdge_lr (a : Image n) :
    topEdge (reflect_left_right a) = (topEdge a).reverse := by
  rw [topEdge, topEdge, reverse_ofFn, List.ofFn_inj]
  funext j
  rfl

theorem botEdge_lr (a : Image n) :
    botEdge (reflect_left_right a) = (botEdge a).reverse := by
  rw [botEdge, botEdge, reverse_ofFn, List.ofFn_inj]
  funext j
  rfl

theorem leftEdge_lr (a : Image n) : leftEdge (reflect_left_right a) = rightEdge a := rfl

theorem rightEdge_lr (a : Image n) : rightEdge (reflect_left_right a) = leftEdge a := by
  rw [rightEdge, leftEdge, List.ofFn_inj]
  funext i
  simp [reflect_left_right, Fin.rev_rev]

/-! ### Corner orientation in `build_image` (C4) -/

/-- Two edge readings describe the same physical edge when one is the other
or its reverse (edge matching in the source is direction-insensitive). -/
def sameEdge (e f : List Bool) : Prop := e = f ∨ e = f.reverse

/-- The corrective transform `build_image` applies to the chosen corner tile,
keyed by the set of ordered-edge indices (`0`=top, `1`=bottom, `2`=left,
`3`=right) of its unmatched edges:  `{0, 3} ↦ rotate 1`, `{1, 3} ↦ rotate 2`,
`{1, 2} ↦ reflect_up_down`, anything else (in particular `{0, 2}`) ↦ no
change. -/
def orientCorner (unmatched : Finset ℕ) (a : Image n) : Image n :=
  if unmatched = {0, 3} then rotate 1 a
  else if unmatched = {1, 3} then rotate 2 a
  else if unmatched = {1, 2} then reflect_up_down a
  else a

theorem rotate_one (a : Image n) : rotate 1 a = rot90 a := rfl

theorem rotate_two (a : Image n) : rotate 2 a = rot90 (rot90 a) := by
  unfold rotate
  rw [show (2 : ℕ) = 1 + 1 by decide, Function.iterate_add_apply]
  rfl

/-- Claim C4: for each of the four possible unmatched ordered-edge index
sets of the corner tile, the corrective transform applied by `build_image`
leaves the (direction-insensitive) contents of the two unmatched edges on
the top (ordered-edge index 0) and left (ordered-edge index 2) sides of the
transformed tile. -/
theorem orient_corner_unmatched_top_left (a : Image n) :
    (sameEdge (topEdge (orientCorner {0, 3} a)) (rightEdge a) ∧
      sameEdge (leftEdge (orientCorner {0, 3} a)) (topEdge a)) ∧
    (sameEdge (topEdge (orientCorner {1, 3} a)) (botEdge a) ∧
      sameEdge (leftEdge (orientCorner {1, 3} a)) (rightEdge a)) ∧
    (sameEdge (topEdge (orientCorner {1, 2} a)) (botEdge a) ∧
      sameEdge (leftEdge (orientCorner {1, 2} a)) (leftEdge a)) ∧
    (sameEdge (topEdge (orientCorner {0, 2} a)) (topEdge a) ∧
      sameEdge (leftEdge (orientCorner {0, 2} a)) (leftEdge a)) := by
  have h03 : orientCorner {0, 3} a = rotate 1 a := by
    rw [orientCorner, if_pos rfl]
  have h13 : orientCorner {1, 3} a = rotate 2 a := by
    rw [orientCorner, if_neg (by decide), if_pos rfl]
  have h12 : orientCorner {1, 2} a = reflect_up_down a := by
    rw [orientCorner, if_neg (by decide), if_neg (by decide), if_pos rfl]
  have h02 : orientCorner {0, 2} a = a := by
    rw [orientCorner, if_neg (by decide), if_neg (by decide), if_neg (by decide)]
  refine ⟨⟨?_, ?_⟩, ⟨?_, ?_⟩, ⟨?_, ?_⟩, ⟨?_, ?_⟩⟩
  · rw [h03, rotate_one, topEdge_rot90]; exact Or.inl rfl
  · rw [h03, rotate_one, leftEdge_rot90]; exact Or.inr rfl
  · rw [h13, rotate_two, topEdge_rot90, rightEdge_rot90]; exact Or.inr rfl
  · rw [h13, rotate_two, leftEdge_rot90, topEdge_rot90]; exact Or.inr rfl
  · rw [h12, topEdge_ud]; exact Or.inl rfl
  · rw [h12, leftEdge_ud]; exact Or.inr rfl
  · rw [h02]; exact Or.inl rfl
  · rw [h02]; exact Or.inl rfl

/-! ### `match_two_tiles` (C1, C5, C9)

Python returns an `int` side, returns `None`, or raises `UnboundLocalError`
when `m` was never assigned.  The embedding returns
`Image n × Option (Option ℕ)`: the final state of the mutated other tile,
paired with `none` (the unbound-variable error), `some none` (`return None`)
or `some (some i)` (`return i`).

`matching_edges.pop()` removes an arbitrary element of the Python set; the
embedding resolves this nondeterminism by popping the first shared edge in
the other tile's `[top, bottom, left, right]` order (all concrete inputs
used below have a single shared edge value, where the two agree). -/

/-- `other_tile.edges & static_tile.edges`, as the sublist of the other
tile's ordered edges that also occur among the static tile's edges. -/
def sharedEdges (othert statict : Image n) : List (List Bool) :=
  (list_edges othert).filter fun e => decide (e ∈ list_edges statict)

/-- The body of `check_match`: pop the shared edge `e`, locate it in both
ordered edge lists, and accept only an opposite-side position pair. -/
def check_match (statict othert : Image n) (e : List Bool) : Option ℕ :=
  let i := (list_edges statict).indexOf e
  let j := (list_edges othert).indexOf e
  if (i, j) ∈ [(0, 1), (1, 0), (2, 3), (3, 2)] then some i else none

/-- The 8-iteration search loop of `match_two_tiles`: transform, intersect
edge sets, and on a non-empty intersection run `check_match`, breaking on
success and remembering `m = None` on failure. -/
def matchLoop (statict : Image n) : List ℕ → Image n → Option (Option ℕ) →
    Image n × Option (Option ℕ)
  | [], othert, m => (othert, m)
  | i :: rest, othert, m =>
    let b := stepTransform i othert
    match sharedEdges b statict with
    | [] => matchLoop statict rest b m
    | e :: _ =>
      match check_match statict b e with
      | some k => (b, some (some k))
      | none => matchLoop statict rest b (some none)

/-- `match_two_tiles(static_tile, other_tile)`: the mutated other tile and
the returned value (see the encoding above). -/
def match_two_tiles (statict othert : Image n) : Image n × Option (Option ℕ) :=
  matchLoop statict (List.range 8) othert none

/-- The grid coordinate written by `build_image`'s placement dispatch, given
`matched_edge` and the current tile's coordinate: `0 ↦ (i-1, j)`,
`1 ↦ (i+1, j)`, `2 ↦ (i, j-1)`, everything else — `3` but also `None` —
falls into the final `else` and yields `(i, j+1)`. -/
def placeCoord (m : Option ℕ) (i j : ℤ) : ℤ × ℤ :=
  match m with
  | some 0 => (i - 1, j)
  | some 1 => (i + 1, j)
  | some 2 => (i, j - 1)
  | _ => (i, j + 1)

/-- If the loop's `m` starts unset-or-`None`, a returned side index can only
come from a break: some reached orientation shares its popped edge with the
static tile and `check_match` accepts it there. -/
theorem matchLoop_some (statict : Image n) (steps : List ℕ) :
    ∀ (othert : Image n) (m : Option (Option ℕ)), (m = none ∨ m = some none) →
      ∀ k : ℕ, (matchLoop statict steps othert m).2 = some (some k) →
        (matchLoop statict steps othert m).1 ∈ statesFrom othert steps ∧
        ∃ e rest, sharedEdges (matchLoop statict steps othert m).1 statict = e :: rest ∧
          check_match statict (matchLoop statict steps othert m).1 e = some k := by
  induction steps with
  | nil =>
      intro othert m hm k hk
      rcases hm with h | h <;> rw [matchLoop] at hk <;> simp [h] at hk
  | cons i rest ih =>
      intro othert m hm k hk
      rw [matchLoop] at hk ⊢
      split
      · next heq =>
          rw [heq] at hk
          have hk2 : (matchLoop statict rest (stepTransform i othert) m).2 =
              some (some k) := hk
          have h2 := ih (stepTransform i othert) m hm k hk2
          exact ⟨List.mem_cons_of_mem _ h2.1, h2.2⟩
      · next e es heq =>
          rw [heq] at hk
          have hk1 : (match check_match statict (stepTransform i othert) e with
              | some k2 => (stepTransform i othert, some (some k2))
              | none => matchLoop statict rest (stepTransform i othert)
                  (some none)).2 = some (some k) := hk
          split
          · next k2 hcm =>
              rw [hcm] at hk1
              have hk2 : (some (some k2) : Option (Option ℕ)) = some (some k) := hk1
              have hkk : k2 = k := by
                injection (Option.some_inj.mp hk2)
              subst hkk
              exact ⟨List.mem_cons_self _ _, e, es, heq, hcm⟩
          · next hcm =>
              rw [hcm] at hk1
              have hk2 : (matchLoop statict rest (stepTransform i othert)
                  (some none)).2 = some (some k) := hk1
              have h2 := ih (stepTransform i othert) (some none) (Or.inr rfl) k hk2
              exact ⟨List.mem_cons_of_mem _ h2.1, h2.2⟩

/-- Looking an element up at its own index (`getD` total form). -/
theorem getD_indexOf {α : Type} [BEq α] [LawfulBEq α] (d : α) :
    ∀ (l : List α) (e : α), e ∈ l → l.getD (l.indexOf e) d = e := by
  intro l
  induction l with
  | nil => intro e h; cases h
  | cons b l ih =>
      intro e h
      by_cases hb : b = e
      · subst hb
        have h0 : (b :: l).indexOf b = 0 := by
          simp [List.indexOf, List.findIdx_cons]
        rw [h0]; rfl
      · have hbeq : (b == e) = false := by simp [hb]
        have hsucc : (b :: l).indexOf e = l.indexOf e + 1 := by
          simp [List.indexOf, List.findIdx_cons, hbeq]
        rw [hsucc]
        have hmem : e ∈ l := by
          rcases List.mem_cons.mp h with h1 | h1
          · exact absurd h1.symm hb
          · exact h1
        simpa using ih e hmem

/-- What `check_match` accepting with result `k` means. -/
theorem check_match_some (statict othert : Image n) (e : List Bool) (k : ℕ)
    (h : check_match statict othert e = some k) :
    (list_edges statict).indexOf e = k ∧
    (k, (list_edges othert).indexOf e) ∈ [(0, 1), (1, 0), (2, 3), (3, 2)] := by
  simp only [check_match] at h
  split at h
  · next hp =>
      have hik : (list_edges statict).indexOf e = k := Option.some_inj.mp h
      subst hik
      exact ⟨rfl, hp⟩
  · exact absurd h (by simp)

/-- Claim C1: whenever `match_two_tiles` returns a side index `k`, the other
tile has been mutated into one of the 8 searched orientations, the popped
shared edge lies in both tiles' ordered edge lists, `k` is its position in
the static tile's ordered edge list `[top, bottom, left, right]`, and the
positions `(k, j)` of the shared edge in the static and (mutated) other
tile's ordered edge lists form one of the opposite-side pairs
`(0,1), (1,0), (2,3), (3,2)`. -/
theorem match_two_tiles_valid_side (statict othert : Image n) (k : ℕ)
    (hk : (match_two_tiles statict othert).2 = some (some k)) :
    (match_two_tiles statict othert).1 ∈ orientationStates othert ∧
    ∃ e, e ∈ list_edges statict ∧
      e ∈ list_edges (match_two_tiles statict othert).1 ∧
      (list_edges statict).indexOf e = k ∧
      (list_edges statict).getD k [] = e ∧
      (k, (list_edges (match_two_tiles statict othert).1).indexOf e) ∈
        [(0, 1), (1, 0), (2, 3), (3, 2)] := by
  have hP : match_two_tiles statict othert =
      matchLoop statict (List.range 8) othert none := rfl
  rw [hP] at hk ⊢
  have h := matchLoop_some statict (List.range 8) othert none (Or.inl rfl) k hk
  obtain ⟨hmem, e, rest, hsh, hcm⟩ := h
  have he : e ∈ sharedEdges (matchLoop statict (List.range 8) othert none).1
      statict := by
    rw [hsh]; exact List.mem_cons_self _ _
  have hes : e ∈ list_edges statict := by
    have h2 := List.of_mem_filter he
    simpa using h2
  have heo : e ∈ list_edges (matchLoop statict (List.range 8) othert none).1 :=
    List.mem_of_mem_filter he
  obtain ⟨hik, hp⟩ := check_match_some statict _ e k hcm
  refine ⟨hmem, e, hes, heo, hik, ?_, hp⟩
  rw [← hik]
  exact getD_indexOf [] (list_edges statict) e hes

/-! ### Evaluating bounded quantifiers over state lists

`decide` on `∀ s ∈ l, p s` can pick the `Fintype` instance on `Image n`
(enumerating all `2 ^ (n * n)` images); these helpers reduce such goals to
one `List.all`/`List.any` evaluation over the 8 listed states instead. -/

theorem ball_of_all {α : Type} (p : α → Prop) [DecidablePred p] (l : List α)
    (h : (l.all fun x => decide (p x)) = true) : ∀ x ∈ l, p x :=
  fun x hx => of_decide_eq_true (List.all_eq_true.mp h x hx)

theorem bex_of_any {α : Type} (p : α → Prop) [DecidablePred p] (l : List α)
    (h : (l.any fun x => decide (p x)) = true) : ∃ x ∈ l, p x := by
  obtain ⟨x, hx, hp⟩ := List.any_eq_true.mp h
  exact ⟨x, hx, of_decide_eq_true hp⟩

/-! ### Failure of the orientation search (C5, C9) -/

/-- One search step settles nothing: either the transformed other tile shares
no edge with the static tile, or the popped shared edge fails `check_match`. -/
def stepFails (statict s : Image n) : Bool :=
  match sharedEdges s statict with
  | [] => true
  | e :: _ => check_match statict s e == none

/-- If every searched orientation settles nothing, the loop ends with the
`m` it was started with, or with `m = None` set by a failed check. -/
theorem matchLoop_fails (statict : Image n) (steps : List ℕ) :
    ∀ (othert : Image n) (m : Option (Option ℕ)), (m = none ∨ m = some none) →
      (∀ s ∈ statesFrom othert steps, stepFails statict s = true) →
      (matchLoop statict steps othert m).2 = none ∨
        (matchLoop statict steps othert m).2 = some none := by
  induction steps with
  | nil =>
      intro othert m hm _
      rcases hm with h | h <;> rw [matchLoop, h] <;> simp
  | cons i rest ih =>
      intro othert m hm hall
      have hhead : stepFails statict (stepTransform i othert) = true :=
        hall _ (List.mem_cons_self _ _)
      have htail : ∀ s ∈ statesFrom (stepTransform i othert) rest,
          stepFails statict s = true := by
        intro s hs
        exact hall s (List.mem_cons_of_mem _ hs)
      rw [matchLoop]
      split
      · exact ih (stepTransform i othert) m hm htail
      · next e es heq =>
          rw [stepFails, heq] at hhead
          have hcm : check_match statict (stepTransform i othert) e = none := by
            simpa using hhead
          split
          · next k2 hcm2 => rw [hcm] at hcm2; exact absurd hcm2 (by simp)
          · exact ih (stepTransform i othert) (some none) (Or.inr rfl) htail

/-- Claim C5 (amended): if the 8-orientation search exhausts without a valid
opposite-side match, `match_two_tiles` never yields a side index: the Python
call either raises (`m` referenced unset, encoded `none`) or returns `None`
(encoded `some none`). -/
theorem match_two_tiles_exhaustion_no_side (statict othert : Image n)
    (h : ∀ s ∈ orientationStates othert, stepFails statict s = true) :
    (match_two_tiles statict othert).2 = none ∨
      (match_two_tiles statict othert).2 = some none :=
  matchLoop_fails statict (List.range 8) othert none (Or.inl rfl) h

/-! ### Concrete tiles -/

/-- Build an image from a row-major list of rows (a parsed tile bitmap). -/
def mkImage (m : ℕ) (rows : List (List Bool)) : Image m :=
  fun i j => (rows.getD i.val []).getD j.val false

/-- A 3×3 tile whose bottom edge is `#..`. -/
def tileA1 : Image 3 :=
  mkImage 3 [[true, true, false], [false, false, true], [true, false, false]]

/-- A 3×3 tile whose last column is `#..` read top to bottom after one
anticlockwise quarter turn becomes the top edge matching `tileA1`'s bottom. -/
def tileB1 : Image 3 :=
  mkImage 3 [[false, false, true], [false, false, false], [true, false, false]]

/-- A 3×3 tile whose top edge is all clear and other edges are not. -/
def staticT : Image 3 :=
  mkImage 3 [[false, false, false], [true, false, true], [true, true, true]]

/-- The all-clear 3×3 tile: every orientation has only the edge `...`. -/
def zeroT : Image 3 := fun _ _ => false

/-- Witness for claim C1 at a concrete pair: the match succeeds with side
index 1 (the static tile's bottom edge) and the conclusion of
`match_two_tiles_valid_side` holds there. -/
theorem match_two_tiles_valid_side_witness :
    (match_two_tiles tileA1 tileB1).2 = some (some 1) ∧
    ((match_two_tiles tileA1 tileB1).1 ∈ orientationStates tileB1 ∧
      ∃ e, e ∈ list_edges tileA1 ∧
        e ∈ list_edges (match_two_tiles tileA1 tileB1).1 ∧
        (list_edges tileA1).indexOf e = 1 ∧
        (list_edges tileA1).getD 1 [] = e ∧
        (1, (list_edges (match_two_tiles tileA1 tileB1).1).indexOf e) ∈
          [(0, 1), (1, 0), (2, 3), (3, 2)]) :=
  ⟨by decide, match_two_tiles_valid_side tileA1 tileB1 1 (by decide)⟩

/-- Counterexample for claim C5 as stated: for the concrete pair
`(staticT, zeroT)` the search exhausts all 8 orientations without a valid
opposite-side match (the single shared edge `...` sits at position pair
`(0, 0)` everywhere, which `check_match` rejects), yet the call does not
fail: it returns the result `None` (`some none`), because `m` was assigned
`None` by the failed checks. -/
theorem match_two_tiles_exhaustion_returns_none :
    (∀ s ∈ orientationStates zeroT, stepFails staticT s = true) ∧
    (match_two_tiles staticT zeroT).2 = some none :=
  ⟨ball_of_all _ _ (by decide), by decide⟩

/-- Witness for the amended claim C5 at the same concrete pair. -/
theorem match_two_tiles_exhaustion_no_side_witness :
    (∀ s ∈ orientationStates zeroT, stepFails staticT s = true) ∧
    ((match_two_tiles staticT zeroT).2 = none ∨
      (match_two_tiles staticT zeroT).2 = some none) :=
  ⟨ball_of_all _ _ (by decide),
   match_two_tiles_exhaustion_no_side staticT zeroT (ball_of_all _ _ (by decide))⟩

/-- Claim C9: for the concrete pair `(staticT, zeroT)`, the only shared edge
value is `...` (all clear); in the 8th (final) attempted orientation it
fails the opposite-side check (as it does throughout the search), so
`match_two_tiles` returns `None` instead of a side index; and `build_image`'s
placement dispatch treats any result other than `0`, `1`, `2` — `None`
included, but also the side value `3` — as side right, placing the neighbour
at grid coordinate `(row, col + 1)`. -/
theorem none_result_placed_right :
    (sharedEdges ((orientationStates zeroT).getD 7 zeroT) staticT).toFinset =
      {[false, false, false]} ∧
    check_match staticT ((orientationStates zeroT).getD 7 zeroT)
      [false, false, false] = none ∧
    (∀ s ∈ orientationStates zeroT,
      (sharedEdges s staticT).toFinset = {[false, false, false]} ∧
      stepFails staticT s = true) ∧
    (match_two_tiles staticT zeroT).2 = some none ∧
    (∀ r c : ℤ, placeCoord none r c = (r, c + 1) ∧
      placeCoord (some 3) r c = (r, c + 1)) := by
  refine ⟨by decide, by decide, ball_of_all _ _ (by decide), by decide, ?_⟩
  intro r c
  exact ⟨rfl, rfl⟩

/-! ### numpy index wrapping in `build_image`'s grid writes (C10) -/

/-- numpy indexing on an axis of length `g`: indices `0 ≤ k < g` address cell
`k`, negative indices `-g ≤ k < 0` wrap to cell `k + g`, everything else is
an `IndexError` (`none`). -/
def npWrap (g : ℕ) (k : ℤ) : Option (Fin g) :=
  if h : 0 ≤ k ∧ k < (g : ℤ) then some ⟨k.toNat, by omega⟩
  else if h2 : -(g : ℤ) ≤ k ∧ k < 0 then some ⟨(k + g).toNat, by omega⟩
  else none

/-- `id_grid[(i, j)] = v` with numpy index semantics on a `g × g` grid (the
out-of-range `IndexError` case is modelled as leaving the grid unchanged;
the claims below never reach it). -/
def npSet (g : ℕ) (grid : Fin g → Fin g → ℕ) (p : ℤ × ℤ) (v : ℕ) :
    Fin g → Fin g → ℕ :=
  match npWrap g p.1, npWrap g p.2 with
  | some r, some c => fun a b => if a = r ∧ b = c then v else grid a b
  | _, _ => grid

theorem npWrap_neg_one (g : ℕ) : npWrap (g + 1) (-1) = some (Fin.last g) := by
  have hc1 : ¬(0 ≤ (-1 : ℤ) ∧ (-1 : ℤ) < ((g + 1 : ℕ) : ℤ)) := by
    rintro ⟨h, _⟩
    omega
  have hc2 : -((g + 1 : ℕ) : ℤ) ≤ (-1 : ℤ) ∧ (-1 : ℤ) < 0 := by
    constructor <;> omega
  rw [npWrap, dif_neg hc1, dif_pos hc2]
  have hval : (((-1 : ℤ) + ((g + 1 : ℕ) : ℤ)).toNat : ℕ) = g := by
    omega
  exact congrArg some (Fin.ext hval)

theorem npWrap_val (g : ℕ) (x : Fin (g + 1)) :
    npWrap (g + 1) (x.val : ℤ) = some x := by
  have hc1 : 0 ≤ (x.val : ℤ) ∧ (x.val : ℤ) < ((g + 1 : ℕ) : ℤ) := by
    refine ⟨Int.natCast_nonneg _, ?_⟩
    exact_mod_cast x.isLt
  rw [npWrap, dif_pos hc1]
  exact congrArg some (Fin.ext (Int.toNat_natCast _))

/-- Claim C10: in `build_image`'s placement step, a reported side top (`0`)
for a current tile in grid row `0` makes the write go to `id_grid[(-1, j)]`,
which numpy wraps to the last row instead of failing; symmetrically, side
left (`2`) in column `0` writes into the last column. -/
theorem negative_index_wraps (g : ℕ) (grid : Fin (g + 1) → Fin (g + 1) → ℕ)
    (r c : Fin (g + 1)) (v : ℕ) :
    placeCoord (some 0) 0 (c.val : ℤ) = (-1, (c.val : ℤ)) ∧
    npWrap (g + 1) (-1) = some (Fin.last g) ∧
    npSet (g + 1) grid (placeCoord (some 0) 0 (c.val : ℤ)) v (Fin.last g) c = v ∧
    npSet (g + 1) grid (placeCoord (some 2) (r.val : ℤ) 0) v r (Fin.last g) = v := by
  have hp0 : placeCoord (some 0) 0 (c.val : ℤ) = (-1, (c.val : ℤ)) := by
    rw [placeCoord]; norm_num
  have hp2 : placeCoord (some 2) (r.val : ℤ) 0 = ((r.val : ℤ), -1) := by
    rw [placeCoord]; norm_num
  refine ⟨hp0, npWrap_neg_one g, ?_, ?_⟩
  · rw [hp0, npSet]
    simp only [npWrap_neg_one g, npWrap_val g c]
    simp
  · rw [hp2, npSet]
    simp only [npWrap_neg_one g, npWrap_val g r]
    simp

/-! ### The sea-monster pattern and `measure_water_roughness` (C2, C7) -/

/-- The fixed `MONSTER` mask, 3 rows × 20 columns (`true` = `#`), exactly
the rows of the source's `MONSTER` string after its leading blank line. -/
def monster : List (List Bool) :=
  [[false, false, false, false, false, false, false, false, false, false,
    false, false, false, false, false, false, false, false, true, false],
   [true, false, false, false, false, true, true, false, false, false,
    false, true, true, false, false, false, false, true, true, true],
   [false, true, false, false, true, false, false, true, false, false,
    true, false, false, true, false, false, true, false, false, false]]

/-- `monster.sum()`: the pattern's set-pixel count. -/
def monsterPixels : ℕ := (monster.map fun row => row.count true).sum

theorem monsterPixels_eq : monsterPixels = 15 := by decide

/-- Pixel lookup with explicit bounds (`false` out of range; the scans below
only ever look in range, as numpy does in the source). -/
def getPix (a : Image n) (r c : ℕ) : Bool :=
  if h : r < n ∧ c < n then a ⟨r, h.1⟩ ⟨c, h.2⟩ else false

/-- `(monster * sub_image).sum()` for the 3×20 window at `(i, j)`. -/
def monsterOverlap (a : Image n) (i j : ℕ) : ℕ :=
  ((List.range 3).map fun r =>
    ((List.range 20).map fun c =>
      if ((monster.getD r []).getD c false) && getPix a (i + r) (j + c)
      then 1 else 0).sum).sum

/-- `count_monsters`: the number of window positions whose overlap with the
pattern equals the pattern's full pixel count.  The ranges are Python's
`range(n - w + 1)` and `range(n - h + 1)` with `(w, h) = (3, 20)`
(truncated subtraction mirrors Python's empty range for negative bounds). -/
def countMonsters (a : Image n) : ℕ :=
  ((List.range (n + 1 - 3)).map fun i =>
    ((List.range (n + 1 - 20)).map fun j =>
      if monsterOverlap a i j = monsterPixels then 1 else 0).sum).sum

/-- The scanning loop of `measure_water_roughness`: transform (same
`stepTransform` as the tile matcher), count monsters, break on the first
positive count.  When the loop runs out, the last orientation's state and
count are what Python's `image` and `num_monsters` hold after the `for`
(breaking on a positive count at the last step returns the same pair as
falling through, so the last step needs no `if`). -/
def mwrLoop : List ℕ → Image n → Image n × ℕ
  | [], a => (a, 0)
  | [i], a => (stepTransform i a, countMonsters (stepTransform i a))
  | i :: j :: rest, a =>
      if 0 < countMonsters (stepTransform i a)
      then (stepTransform i a, countMonsters (stepTransform i a))
      else mwrLoop (j :: rest) (stepTransform i a)

/-- `measure_water_roughness(image)`: set pixels of the final bitmap minus
(monster count × pattern pixel count), as Python's unbounded `int`. -/
def measure_water_roughness (a : Image n) : ℤ :=
  (pixelCount (mwrLoop (List.range 8) a).1 : ℤ) -
    ((mwrLoop (List.range 8) a).2 : ℤ) * (monsterPixels : ℤ)

/-- If some searched orientation has a positive monster count, the loop
stops at an orientation whose own count it returns, and that count is
positive. -/
theorem mwrLoop_pos :
    ∀ (steps : List ℕ) (a : Image n), steps ≠ [] →
      (∃ s ∈ statesFrom a steps, 0 < countMonsters s) →
      (mwrLoop steps a).1 ∈ statesFrom a steps ∧
      (mwrLoop steps a).2 = countMonsters (mwrLoop steps a).1 ∧
      0 < (mwrLoop steps a).2 := by
  intro steps
  induction steps with
  | nil => intro a h; exact absurd rfl h
  | cons i rest ih =>
      intro a _ hex
      cases rest with
      | nil =>
          obtain ⟨s, hs, hpos⟩ := hex
          have hsb : s = stepTransform i a := by
            rw [statesFrom_cons] at hs
            rcases List.mem_cons.mp hs with h1 | h1
            · exact h1
            · simp [statesFrom] at h1
          subst hsb
          exact ⟨List.mem_cons_self _ _, rfl, hpos⟩
      | cons j rest2 =>
          rw [mwrLoop]
          by_cases hpos : 0 < countMonsters (stepTransform i a)
          · rw [if_pos hpos]
            exact ⟨List.mem_cons_self _ _, rfl, hpos⟩
          · rw [if_neg hpos]
            obtain ⟨s, hs, hspos⟩ := hex
            rw [statesFrom_cons] at hs
            have htail : s ∈ statesFrom (stepTransform i a) (j :: rest2) := by
              rcases List.mem_cons.mp hs with h1 | h1
              · exact absurd (h1 ▸ hspos) hpos
              · exact h1
            have h2 := ih (stepTransform i a) (by simp) ⟨s, htail, hspos⟩
            exact ⟨List.mem_cons_of_mem _ h2.1, h2.2.1, h2.2.2⟩

/-- If no searched orientation has a monster, the loop runs to the end:
the final state is the fold of all steps and the count is `0`. -/
theorem mwrLoop_zero :
    ∀ (steps : List ℕ) (a : Image n), steps ≠ [] →
      (∀ s ∈ statesFrom a steps, countMonsters s = 0) →
      mwrLoop steps a = (steps.foldl (fun s i => stepTransform i s) a, 0) := by
  intro steps
  induction steps with
  | nil => intro a h; exact absurd rfl h
  | cons i rest ih =>
      intro a _ hall
      have hhead : countMonsters (stepTransform i a) = 0 :=
        hall _ (by rw [statesFrom_cons]; exact List.mem_cons_self _ _)
      cases rest with
      | nil =>
          rw [mwrLoop, hhead]
          rfl
      | cons j rest2 =>
          rw [mwrLoop, if_neg (by rw [hhead]; exact lt_irrefl 0)]
          have htail : ∀ s ∈ statesFrom (stepTransform i a) (j :: rest2),
              countMonsters s = 0 := by
            intro s hs
            exact hall s (by rw [statesFrom_cons]; exact List.mem_cons_of_mem _ hs)
          rw [ih (stepTransform i a) (by simp) htail]
          rfl

theorem stepTransform_of_ne (i : ℕ) (hi : i ≠ 4) (b : Image n) :
    stepTransform i b = rot90 b := by
  rw [stepTransform, if_neg hi]

theorem stepTransform_four (b : Image n) :
    stepTransform 4 b = rot90 (reflect_left_right b) := by
  rw [stepTransform, if_pos rfl]

/-- Running all 8 steps transforms the bitmap into its horizontal
reflection (four rotations cancel, twice). -/
theorem foldl_step_eight (a : Image n) :
    (List.range 8).foldl (fun s i => stepTransform i s) a =
      reflect_left_right a := by
  have hr : List.range 8 = [0, 1, 2, 3, 4, 5, 6, 7] := by decide
  rw [hr]
  simp only [List.foldl_cons, List.foldl_nil]
  rw [stepTransform_of_ne 0 (by decide), stepTransform_of_ne 1 (by decide),
    stepTransform_of_ne 2 (by decide), stepTransform_of_ne 3 (by decide),
    stepTransform_four, stepTransform_of_ne 5 (by decide),
    stepTransform_of_ne 6 (by decide), stepTransform_of_ne 7 (by decide)]
  rw [rot90_four a, rot90_four (reflect_left_right a)]

/-- Claim C7: when none of the 8 tested orientations contains a monster,
`measure_water_roughness` returns exactly the total set-pixel count of the
input bitmap with no subtraction, even though the bitmap it sums at return
time is the 8-step-transformed one (its horizontal reflection). -/
theorem roughness_no_monsters_total (a : Image n)
    (h : ∀ s ∈ orientationStates a, countMonsters s = 0) :
    measure_water_roughness a = (pixelCount a : ℤ) ∧
    (mwrLoop (List.range 8) a).1 = reflect_left_right a ∧
    (mwrLoop (List.range 8) a).2 = 0 := by
  have hz := mwrLoop_zero (List.range 8) a (by simp) h
  rw [foldl_step_eight a] at hz
  refine ⟨?_, by rw [hz], by rw [hz]⟩
  rw [measure_water_roughness, hz]
  simp [pixelCount_reflect_left_right]

/-- Claim C2: when some tested orientation of the bitmap yields at least one
monster match, the loop stops at such an orientation; the returned roughness
is that orientation's total set-pixel count minus (matches × pattern pixel
count), and roughness plus (matches × pattern pixel count) equals the total
set-pixel count of the matched orientation. -/
theorem measure_water_roughness_subtracts_monsters (a : Image n)
    (h : ∃ s ∈ orientationStates a, 0 < countMonsters s) :
    (mwrLoop (List.range 8) a).1 ∈ orientationStates a ∧
    0 < (mwrLoop (List.range 8) a).2 ∧
    (mwrLoop (List.range 8) a).2 =
      countMonsters (mwrLoop (List.range 8) a).1 ∧
    measure_water_roughness a =
      (pixelCount (mwrLoop (List.range 8) a).1 : ℤ) -
        ((mwrLoop (List.range 8) a).2 : ℤ) * (monsterPixels : ℤ) ∧
    measure_water_roughness a +
        ((mwrLoop (List.range 8) a).2 : ℤ) * (monsterPixels : ℤ) =
      (pixelCount (mwrLoop (List.range 8) a).1 : ℤ) := by
  have h2 := mwrLoop_pos (List.range 8) a (by simp) h
  refine ⟨h2.1, h2.2.2, h2.2.1, rfl, ?_⟩
  rw [measure_water_roughness]
  ring

/-- A 4×4 bitmap (too small to hold the 3×20 pattern anywhere). -/
def img4 : Image 4 :=
  mkImage 4 [[true, false, false, true], [false, true, false, false],
    [false, false, true, false], [true, false, false, true]]

/-- Witness for claim C7: `img4` has no monster in any orientation and the
scanner returns its raw set-pixel count. -/
theorem roughness_no_monsters_total_witness :
    (∀ s ∈ orientationStates img4, countMonsters s = 0) ∧
    measure_water_roughness img4 = (pixelCount img4 : ℤ) :=
  ⟨ball_of_all _ _ (by decide),
   (roughness_no_monsters_total img4 (ball_of_all _ _ (by decide))).1⟩

/-- A 20×20 bitmap holding exactly the monster pattern in its top rows. -/
def monsterImg : Image 20 := mkImage 20 monster

/-- Three quarter-turns of `monsterImg`: its first searched orientation
(one more quarter turn) is `monsterImg` itself, which contains a monster. -/
def roughTest : Image 20 := rot90 (rot90 (rot90 monsterImg))

/-- Witness for claim C2 at `roughTest`: a monster is found and the
round-trip equation holds. -/
theorem measure_water_roughness_subtracts_monsters_witness :
    (∃ s ∈ orientationStates roughTest, 0 < countMonsters s) ∧
    0 < (mwrLoop (List.range 8) roughTest).2 ∧
    measure_water_roughness roughTest +
        ((mwrLoop (List.range 8) roughTest).2 : ℤ) * (monsterPixels : ℤ) =
      (pixelCount (mwrLoop (List.range 8) roughTest).1 : ℤ) :=
  ⟨bex_of_any _ _ (by decide),
   (measure_water_roughness_subtracts_monsters roughTest
     (bex_of_any _ _ (by decide))).2.1,
   (measure_water_roughness_subtracts_monsters roughTest
     (bex_of_any _ _ (by decide))).2.2.2.2⟩

/-! ### `find_possible_neighbours` and the part-one output (C6) -/

/-- `itertools.combinations(keys, 2)`: ordered pairs with the first element
earlier in the list. -/
def pairList {α : Type} : List α → List (α × α)
  | [] => []
  | x :: xs => (xs.map fun y => (x, y)) ++ pairList xs

/-- The pair test of `find_possible_neighbours`: tile `a`'s edges unioned
with their reverses intersect tile `b`'s (un-reversed) edges. -/
def sharesEdge (a b : Image n) : Bool :=
  decide (((edgeSet a ∪ (edgeSet a).image List.reverse) ∩ edgeSet b).Nonempty)

/-- `find_possible_neighbours(tiles)`: the candidate-neighbour sets, built
by folding over all key pairs and recording each match symmetrically (a
tile never paired is absent from the Python `defaultdict`, i.e. has the
empty neighbour set). -/
def neighbourMap (tiles : List (ℕ × Image n)) : ℕ → Finset ℕ :=
  (pairList tiles).foldl
    (fun acc p =>
      if sharesEdge p.1.2 p.2.2 then
        fun t =>
          if t = p.1.1 then insert p.2.1 (acc t)
          else if t = p.2.1 then insert p.1.1 (acc t)
          else acc t
      else acc)
    (fun _ => ∅)

/-- The ids of the tiles with exactly 2 candidate neighbours, in tile-list
order (the set comprehension of the source's part-one expression; a tile
with no adjacency entry has 0 ≠ 2 neighbours, so iterating all tile ids
agrees with iterating the dict's keys). -/
def cornerIds (tiles : List (ℕ × Image n)) : List ℕ :=
  (tiles.map Prod.fst).filter fun t => decide ((neighbourMap tiles t).card = 2)

/-- `functools.reduce(lambda a, b: a * b, ...)`: left fold of `*` over a
non-empty collection, `none` (Python `TypeError`) on an empty one. -/
def reduceMul : List ℕ → Option ℕ
  | [] => none
  | x :: xs => some (xs.foldl (· * ·) x)

/-- The first integer printed by `__main__`. -/
def partOneOutput (tiles : List (ℕ × Image n)) : Option ℕ :=
  reduceMul (cornerIds tiles)

theorem reduceMul_prod (l : List ℕ) (h : l ≠ []) : reduceMul l = some l.prod := by
  cases l with
  | nil => exact absurd rfl h
  | cons x xs =>
      rw [reduceMul]
      congr 1
      rw [List.prod_eq_foldl, List.foldl_cons, one_mul]

/-- Claim C6: given distinct tile ids and at least one corner, the first
output integer is the product of the identifiers of exactly those tiles
that have exactly 2 candidate neighbours in the adjacency map produced by
`find_possible_neighbours`: the corner-id list multiplies out to the
output, repeats no id, and contains precisely the ids with a 2-element
neighbour set. -/
theorem part_one_corner_product (tiles : List (ℕ × Image n))
    (h1 : (tiles.map Prod.fst).Nodup) (h2 : cornerIds tiles ≠ []) :
    partOneOutput tiles = some (cornerIds tiles).prod ∧
    (cornerIds tiles).Nodup ∧
    (∀ t, t ∈ cornerIds tiles ↔
      t ∈ tiles.map Prod.fst ∧ (neighbourMap tiles t).card = 2) := by
  refine ⟨reduceMul_prod _ h2, h1.filter _, ?_⟩
  intro t
  rw [cornerIds, List.mem_filter]
  constructor
  · rintro ⟨hm, hd⟩
    exact ⟨hm, of_decide_eq_true hd⟩
  · rintro ⟨hm, hd⟩
    exact ⟨hm, decide_eq_true hd⟩

/-- 2×2 test tiles: `tileZ2 – tileM2 – tileO2` form a path in the candidate
neighbour graph, so exactly the middle tile has 2 candidate neighbours. -/
def tileZ2 : Image 2 := fun _ _ => false

/-- The 2×2 tile `..` over `##`. -/
def tileM2 : Image 2 := mkImage 2 [[false, false], [true, true]]

/-- The all-set 2×2 tile. -/
def tileO2 : Image 2 := fun _ _ => true

/-- A 3-tile instance whose adjacency graph is the path 5 – 6 – 7. -/
def tilesW : List (ℕ × Image 2) := [(5, tileZ2), (6, tileM2), (7, tileO2)]

/-- Witness for claim C6: on `tilesW` the hypotheses hold and the first
output is the product over the corner ids. -/
theorem part_one_corner_product_witness :
    ((tilesW.map Prod.fst).Nodup ∧ cornerIds tilesW ≠ []) ∧
    partOneOutput tilesW = some (cornerIds tilesW).prod :=
  ⟨⟨by decide, by decide⟩,
   (part_one_corner_product tilesW (by decide) (by decide)).1⟩

end Aoc20
